import Mathlib

set_option maxHeartbeats 1000000

/-!
A verification development for `create_top1000_verses.py`: a shallow embedding of
its reference parser (`parse_verse_reference`), corpus resolver
(`extract_verses_from_kjv`) and dataset builder (`main`), with theorems about the
parsing, resolution and question-building behaviour.

Python strings are modelled as `List Char`; Python `int` values as `Int`
(Python integers are signed and the resolver subtracts 1 from them before
indexing, so `Nat` truncation would be unfaithful); fallible steps as `Option`;
an uncaught `IndexError` as the `none` result of the resolver.  The regex
character classes `\d` and `\s` (and `str.strip`'s whitespace set) are modelled
on their ASCII parts, which cover every string the program manipulates.
-/

/-- Python-string model: a string is a list of characters. -/
abbrev Str := List Char

/-- The regex class `\d` (ASCII part): code points 48-57, i.e. `0`-`9`. -/
def isPyDigit (c : Char) : Bool := 48 ≤ c.toNat && c.toNat ≤ 57

/-- The regex class `\s` and the character set stripped by `str.strip()`
(ASCII part): space, tab, newline, carriage return, vertical tab, form feed. -/
def isPySpace (c : Char) : Bool :=
  c.toNat = 32 || c.toNat = 9 || c.toNat = 10 || c.toNat = 13 || c.toNat = 11 || c.toNat = 12

/-- The regex class `[A-Za-z\s]` used for the book-name part of the pattern. -/
def isBookChar (c : Char) : Bool :=
  (65 ≤ c.toNat && c.toNat ≤ 90) || (97 ≤ c.toNat && c.toNat ≤ 122) || isPySpace c

/-- Value of a nonempty all-digit string under Python `int()` (e.g. `int("007") = 7`). -/
def digitsVal (ds : Str) : Nat := ds.foldl (fun a c => 10 * a + (c.toNat - 48)) 0

/-- Left half of Python `str.strip()`: drop leading whitespace. -/
def pyLStrip (cs : Str) : Str := cs.dropWhile isPySpace

/-- Right half of Python `str.strip()`: drop trailing whitespace. -/
def pyRStrip (cs : Str) : Str := (cs.reverse.dropWhile isPySpace).reverse

/-- Python `str.strip()`: drop leading and trailing whitespace. -/
def pyStrip (cs : Str) : Str := pyRStrip (pyLStrip cs)

/-- Whether the last character of a string is regex whitespace. -/
def lastIsSpace (l : Str) : Bool :=
  match l.getLast? with
  | some c => isPySpace c
  | none => false

/-- The capture groups of the reference regex
`^((?:\d\s)?[A-Za-z\s]+)\s+(\d+):(\d+)(?:-(\d+))?$` (line 281 of the source):
group 1 (book part), group 2 (chapter digits), group 3 (start-verse digits),
optional group 4 (end-verse digits). -/
structure RefGroups where
  group1 : Str
  chapterDigits : Str
  verseDigits : Str
  endDigits : Option Str
deriving DecidableEq

/-- Matches `[A-Za-z\s]+\s+(\d+):(\d+)(?:-(\d+))?$` against `rest`, where `pre`
is the part of group 1 already consumed by the optional `(?:\d\s)?`.  Because
`[A-Za-z\s]` contains `\s` and excludes digits, `[A-Za-z\s]+\s+` matches exactly
the maximal run of `[A-Za-z\s]` characters provided it has length at least 2 and
ends in whitespace (the regex engine's backtracking hands the run's last
whitespace character to `\s+`); the division of the run between `[A-Za-z\s]+`
and `\s+` does not affect the parser's output, which strips group 1.  Here the
whole run is reported in group 1; the caller strips it, as the source does.
The match is staged: `matchDash` handles `(?:-(\d+))?$` after the start-verse
digits, `matchVerse` the `(\d+)(?:-(\d+))?$` part after the colon,
`matchChapter` the `(\d+):...` part after the book run, and `matchCore` the
book run itself. -/
def matchDash (g1 cds vds : Str) : Str → Option RefGroups
  | [] => some ⟨g1, cds, vds, none⟩
  | c :: rest6 =>
    if c = '-' then
      if (rest6.takeWhile isPyDigit).isEmpty then none
      else
        match rest6.dropWhile isPyDigit with
        | [] => some ⟨g1, cds, vds, some (rest6.takeWhile isPyDigit)⟩
        | _ => none
    else none

/-- Matches `(\d+)(?:-(\d+))?$` against `rest4`, the part after the colon. -/
def matchVerse (g1 cds rest4 : Str) : Option RefGroups :=
  if (rest4.takeWhile isPyDigit).isEmpty then none
  else matchDash g1 cds (rest4.takeWhile isPyDigit) (rest4.dropWhile isPyDigit)

/-- Matches `(\d+):(\d+)(?:-(\d+))?$` against `rest2`, the part after the book run. -/
def matchChapter (g1 rest2 : Str) : Option RefGroups :=
  if (rest2.takeWhile isPyDigit).isEmpty then none
  else
    match rest2.dropWhile isPyDigit with
    | c :: rest4 => if c = ':' then matchVerse g1 (rest2.takeWhile isPyDigit) rest4 else none
    | [] => none

def matchCore (pre rest : Str) : Option RefGroups :=
  if lastIsSpace (rest.takeWhile isBookChar) && decide (2 ≤ (rest.takeWhile isBookChar).length)
  then matchChapter (pre ++ rest.takeWhile isBookChar) (rest.dropWhile isBookChar)
  else none

/-- Deterministic matcher for `re.match(r'^((?:\d\s)?[A-Za-z\s]+)\s+(\d+):(\d+)(?:-(\d+))?$', s)`
on an already-stripped string.  The optional `(?:\d\s)?` is taken exactly when the
string starts with a digit (if it does, `[A-Za-z\s]+` cannot match there, so the
optional group is forced; if it does not, the optional group cannot match).
Python's `$` can also match before a trailing newline, but the source strips the
string first, so that case cannot arise. -/
def matchRef (cs : Str) : Option RefGroups :=
  match cs with
  | c0 :: c1 :: rest =>
    if isPyDigit c0 then
      if isPySpace c1 then matchCore [c0, c1] rest else none
    else matchCore [] cs
  | _ => matchCore [] cs

/-- The dictionary returned by `parse_verse_reference` on success. -/
structure ParsedRef where
  book : Str
  chapter : Int
  start_verse : Int
  end_verse : Int
deriving DecidableEq

/-- Embedding of `parse_verse_reference` (source lines 278-296): strip the
input, match the reference regex, and on success return the stripped book name,
the chapter, the start verse and the end verse (defaulting to the start verse
when no range is given).  `None` becomes `none`. -/
def parse_verse_reference (ref : Str) : Option ParsedRef :=
  match matchRef (pyStrip ref) with
  | none => none
  | some g =>
    some { book := pyStrip g.group1
           chapter := (digitsVal g.chapterDigits : Int)
           start_verse := (digitsVal g.verseDigits : Int)
           end_verse :=
             match g.endDigits with
             | some ds => (digitsVal ds : Int)
             | none => (digitsVal g.verseDigits : Int) }

/-- The `BOOK_ABBREV` dictionary of the source (lines 258-275): canonical
English book names mapped to the abbreviations used in the KJV JSON, as an
association list (all keys are distinct, so first-match lookup coincides with
dictionary lookup). -/
def BOOK_ABBREV : List (Str × Str) :=
  [("Genesis".toList, "gn".toList), ("Exodus".toList, "ex".toList),
   ("Leviticus".toList, "lv".toList), ("Numbers".toList, "nm".toList),
   ("Deuteronomy".toList, "dt".toList), ("Joshua".toList, "js".toList),
   ("Judges".toList, "jd".toList), ("Ruth".toList, "rt".toList),
   ("1 Samuel".toList, "1sm".toList), ("2 Samuel".toList, "2sm".toList),
   ("1 Kings".toList, "1kgs".toList), ("2 Kings".toList, "2kgs".toList),
   ("1 Chronicles".toList, "1chr".toList), ("2 Chronicles".toList, "2chr".toList),
   ("Ezra".toList, "ezr".toList), ("Nehemiah".toList, "neh".toList),
   ("Esther".toList, "est".toList), ("Job".toList, "jb".toList),
   ("Psalm".toList, "ps".toList), ("Psalms".toList, "ps".toList),
   ("Proverbs".toList, "prv".toList), ("Ecclesiastes".toList, "eccl".toList),
   ("Song of Solomon".toList, "sng".toList), ("Isaiah".toList, "is".toList),
   ("Jeremiah".toList, "jer".toList), ("Lamentations".toList, "lam".toList),
   ("Ezekiel".toList, "ezk".toList), ("Daniel".toList, "dn".toList),
   ("Hosea".toList, "hs".toList), ("Joel".toList, "jl".toList),
   ("Amos".toList, "am".toList), ("Obadiah".toList, "ob".toList),
   ("Jonah".toList, "jnh".toList), ("Micah".toList, "mi".toList),
   ("Nahum".toList, "na".toList), ("Habakkuk".toList, "hb".toList),
   ("Zephaniah".toList, "zep".toList), ("Haggai".toList, "hg".toList),
   ("Zechariah".toList, "zec".toList), ("Malachi".toList, "mal".toList),
   ("Matthew".toList, "mt".toList), ("Mark".toList, "mk".toList),
   ("Luke".toList, "lk".toList), ("John".toList, "jn".toList),
   ("Acts".toList, "act".toList), ("Romans".toList, "rom".toList),
   ("1 Corinthians".toList, "1cor".toList), ("2 Corinthians".toList, "2cor".toList),
   ("Galatians".toList, "gal".toList), ("Ephesians".toList, "eph".toList),
   ("Philippians".toList, "phi".toList), ("Colossians".toList, "col".toList),
   ("1 Thessalonians".toList, "1th".toList), ("2 Thessalonians".toList, "2th".toList),
   ("1 Timothy".toList, "1tm".toList), ("2 Timothy".toList, "2tm".toList),
   ("Titus".toList, "ti".toList), ("Philemon".toList, "phm".toList),
   ("Hebrews".toList, "heb".toList), ("James".toList, "jas".toList),
   ("1 Peter".toList, "1pt".toList), ("2 Peter".toList, "2pt".toList),
   ("1 John".toList, "1jn".toList), ("2 John".toList, "2jn".toList),
   ("3 John".toList, "3jn".toList), ("Jude".toList, "jude".toList),
   ("Revelation".toList, "rv".toList)]

/-- One entry of the KJV JSON array: the field `'abbrev'` (here `abbr`, since
`abbrev` is a Lean keyword) and the field `'chapters'`, an ordered list of
chapters, each an ordered list of verse strings. -/
structure BookEntry where
  abbr : Str
  chapters : List (List Str)
deriving DecidableEq

/-- The effective index of Python `l[i]`: a negative index counts from the end. -/
def pyIdx (l : List α) (i : Int) : Int := if i < 0 then (l.length : Int) + i else i

/-- Python list indexing `l[i]` with its negative-index semantics: `i < 0`
refers to `len(l) + i`; an index out of range (modelled as `none`) raises
`IndexError`. -/
def pyIndex (l : List α) (i : Int) : Option α :=
  if 0 ≤ pyIdx l i ∧ pyIdx l i < (l.length : Int) then l[(pyIdx l i).toNat]? else none

/-- Python `range(a, b)` over integers, as the ascending list `[a, a+1, ..., b-1]`. -/
def pyRange (a b : Int) : List Int :=
  List.map (fun n : Nat => a + (n : Int)) (List.range (b - a).toNat)

/-- Python `str(i)` for an integer (as interpolated by the f-strings of the source). -/
def intStr (i : Int) : Str :=
  if i < 0 then '-' :: Nat.toDigits 10 (-i).toNat else Nat.toDigits 10 i.toNat

/-- Drop everything up to and including the first `\x7d` of the list; `none` if
there is no `\x7d`.  This is the extent of one match of `\x7b[^\x7d]*\x7d`
starting at a `\x7b`: the class `[^\x7d]*` is bounded by the next `\x7d`. -/
def dropThroughRBrace : Str → Option Str
  | [] => none
  | c :: cs => if c = '}' then some cs else dropThroughRBrace cs

/-- Fuel-driven worker for `re.sub(r'\x7b[^\x7d]*\x7d', '', text)`: scan left to
right; at an opening brace with a closing brace somewhere after it, delete
through that closing brace and continue; at an opening brace with no closing
brace anywhere after, no further match can start, so the remainder is kept. -/
def removeAnnotationsGo : Nat → Str → Str
  | _, [] => []
  | 0, cs => cs
  | fuel + 1, c :: cs =>
    if c = '{' then
      match dropThroughRBrace cs with
      | some rest => removeAnnotationsGo fuel rest
      | none => c :: cs
    else c :: removeAnnotationsGo fuel cs

/-- Embedding of `re.sub(r'\x7b[^\x7d]*\x7d', '', verse_text)` (source line 332):
remove every non-nesting brace-delimited annotation.  The fuel `cs.length`
bounds the number of characters consumed, so the worker never runs out. -/
def removeAnnotations (cs : Str) : Str := removeAnnotationsGo cs.length cs

/-- The cleanup applied to raw verse text (source lines 332-333): remove
annotations, then strip surrounding whitespace. -/
def cleanVerse (s : Str) : Str := pyStrip (removeAnnotations s)

/-- No annotation match is left: every opening brace in the string has no
closing brace anywhere after it (the first opening brace decides, since a
closing brace after a later opening brace would also lie after the first one). -/
def okBraces : Str → Bool
  | [] => true
  | c :: cs => if c = '{' then (dropThroughRBrace cs).isNone else okBraces cs

/-- One record appended to `extracted` (source lines 335-338). -/
structure ExtractedVerse where
  reference : Str
  text : Str
deriving DecidableEq

/-- The record built for verse `v`: reference string
`f"<book> <chapter>:<verse_num>"` and the cleaned verse text. -/
def mkExtracted (parsed : ParsedRef) (v : Int) (verse_text : Str) : ExtractedVerse :=
  { reference := parsed.book ++ ' ' :: (intStr parsed.chapter ++ ':' :: intStr v)
    text := cleanVerse verse_text }

/-- The five warning lines the script can print (source lines 306, 312, 340,
342, 346), one constructor per `print` statement. -/
inductive Warning where
  | parseFailure (ref : Str)
  | unknownBook (book : Str)
  | verseNotFound (verse : Int) (book : Str) (chapter : Int)
  | chapterNotFound (chapter : Int) (book : Str)
  | bookNotFound (book : Str)
deriving DecidableEq

/-- The verse loop of the resolver (source lines 327-340) over the verse
numbers `L = range(start_verse, end_verse + 1)`: a verse with
`verse_num - 1 < len(chapter_verses)` is fetched with `chapter_verses[verse_num - 1]`
(an out-of-range index here, possible only for `verse_num = 0` with an empty
chapter, raises `IndexError`, modelled by `none`); otherwise a
`VerseOutOfRange` warning is recorded and the loop continues. -/
def extractLoop (parsed : ParsedRef) (chapter_verses : List Str) :
    List Int → List Warning × Option (List ExtractedVerse)
  | [] => ([], some [])
  | v :: vs =>
    if v - 1 < (chapter_verses.length : Int) then
      match pyIndex chapter_verses (v - 1) with
      | none => ([], none)
      | some verse_text =>
        let (ws, r) := extractLoop parsed chapter_verses vs
        (ws, r.map (fun rest => mkExtracted parsed v verse_text :: rest))
    else
      let (ws, r) := extractLoop parsed chapter_verses vs
      (Warning.verseNotFound v parsed.book parsed.chapter :: ws, r)

/-- Resolution of a single reference string (the body of the `for ref in
references` loop, source lines 304-346): parse; look the book up in
`BOOK_ABBREV`; find the first corpus entry with that abbreviation; check
`chapter - 1 < len(chapters)` and index `chapters[chapter - 1]` (for
`chapter = 0` this is Python index `-1`, the last chapter; on an empty chapter
list it raises, modelled by `none`); then run the verse loop.  Returns the
warnings printed and `some` extracted verses, or `none` for an uncaught
exception. -/
def processRef (kjv_data : List BookEntry) (ref : Str) :
    List Warning × Option (List ExtractedVerse) :=
  match parse_verse_reference ref with
  | none => ([Warning.parseFailure ref], some [])
  | some parsed =>
    match List.lookup parsed.book BOOK_ABBREV with
    | none => ([Warning.unknownBook parsed.book], some [])
    | some book_abbrev =>
      match kjv_data.find? (fun e => e.abbr == book_abbrev) with
      | none => ([Warning.bookNotFound parsed.book], some [])
      | some book_entry =>
        if parsed.chapter - 1 < (book_entry.chapters.length : Int) then
          match pyIndex book_entry.chapters (parsed.chapter - 1) with
          | none => ([], none)
          | some chapter_verses =>
            extractLoop parsed chapter_verses
              (pyRange parsed.start_verse (parsed.end_verse + 1))
        else ([Warning.chapterNotFound parsed.chapter parsed.book], some [])

/-- Embedding of `extract_verses_from_kjv` (source lines 299-348): process the
references in order, concatenating the extracted verses and the printed
warnings; an uncaught exception (`none`) aborts the whole run. -/
def extract_verses_from_kjv (kjv_data : List BookEntry) :
    List Str → List Warning × Option (List ExtractedVerse)
  | [] => ([], some [])
  | ref :: refs =>
    match processRef kjv_data ref with
    | (ws, none) => (ws, none)
    | (ws, some vs) =>
      let (ws2, rest) := extract_verses_from_kjv kjv_data refs
      (ws ++ ws2, rest.map (fun l => vs ++ l))

/-- One entry of the output `questions` array (source lines 375-382). -/
structure QuizQuestion where
  id : Nat
  verse_reference : Str
  verse_text : Str
  question : Str
  correct_answer : Str
  options : List Str
deriving DecidableEq

/-- The question record built from one extracted verse at 1-based index `idx`
(source lines 375-382): `question` is `f"What does <reference> say?"`,
`correct_answer` is the verse text, `options` is the empty list. -/
def toQuestion (idx : Nat) (v : ExtractedVerse) : QuizQuestion :=
  { id := idx
    verse_reference := v.reference
    verse_text := v.text
    question := "What does ".toList ++ v.reference ++ " say?".toList
    correct_answer := v.text
    options := [] }

/-- The `for idx, verse_data in enumerate(extracted_verses, 1)` loop of `main`
(source lines 373-383), started at index `idx`. -/
def buildQuestionsFrom (idx : Nat) : List ExtractedVerse → List QuizQuestion
  | [] => []
  | v :: vs => toQuestion idx v :: buildQuestionsFrom (idx + 1) vs

/-- The full `questions` array built by `main`: sequential ids starting at 1. -/
def buildQuestions (l : List ExtractedVerse) : List QuizQuestion := buildQuestionsFrom 1 l

/-- A small concrete corpus entry in the shape of the KJV JSON (Genesis), used
to instantiate theorems with hypotheses. -/
def gnEntry : BookEntry :=
  { abbr := "gn".toList
    chapters := [["In the beginning God created the heaven and the earth.".toList,
                  "And the earth was without form, and void.".toList]] }

/-- A small concrete corpus entry (John) with two chapters. -/
def jnEntry : BookEntry :=
  { abbr := "jn".toList
    chapters := [["first chapter first verse".toList,
                  "first chapter second verse".toList],
                 ["second chapter only verse ".toList]] }

/-- A small concrete corpus in the shape of the KJV JSON, used to instantiate
theorems with hypotheses. -/
def kjvTest : List BookEntry := [gnEntry, jnEntry]

/-!
Specification-level description of the accepted reference shape, written from
the grammar in the specification: a book part (optionally a digit and a
whitespace character, then at least one letter-or-whitespace character),
whitespace, a chapter numeral, a colon, a verse numeral, and optionally a
hyphen and a second verse numeral. -/

/-- Shape of the book part of a reference. -/
def BookShape (b : Str) : Prop :=
  ∃ pre core, b = pre ++ core ∧
    (pre = [] ∨ ∃ d w, pre = [d, w] ∧ isPyDigit d = true ∧ isPySpace w = true) ∧
    core ≠ [] ∧ ∀ c ∈ core, isBookChar c = true

/-- A string matches the supported reference shape
`<Book> <Chapter>:<Verse>` or `<Book> <Chapter>:<StartVerse>-<EndVerse>`
after trimming surrounding whitespace. -/
def ValidShape (s : Str) : Prop :=
  ∃ b sp cds vds tl,
    pyStrip s = b ++ sp ++ cds ++ ':' :: (vds ++ tl) ∧
    BookShape b ∧
    sp ≠ [] ∧ (∀ c ∈ sp, isPySpace c = true) ∧
    cds ≠ [] ∧ (∀ c ∈ cds, isPyDigit c = true) ∧
    vds ≠ [] ∧ (∀ c ∈ vds, isPyDigit c = true) ∧
    (tl = [] ∨ ∃ wds, tl = '-' :: wds ∧ wds ≠ [] ∧ ∀ c ∈ wds, isPyDigit c = true)

/-- The first character of `b` (if any) is not whitespace. -/
def HeadNotSpace (b : Str) : Prop := ∀ c, b.head? = some c → isPySpace c = false

/-- The part of a reference after the start-verse digits: empty, or a hyphen
followed by the end-verse digits. -/
def tailStr : Option Str → Str
  | none => []
  | some wds => '-' :: wds

/-!  Character-class facts.  -/

theorem not_bookChar_of_digit {c : Char} (h : isPyDigit c = true) : isBookChar c = false := by
  simp only [isPyDigit, Bool.and_eq_true, decide_eq_true_eq] at h
  simp only [isBookChar, isPySpace, Bool.or_eq_false_iff, Bool.and_eq_false_iff,
    decide_eq_false_iff_not]
  omega

theorem not_space_of_digit {c : Char} (h : isPyDigit c = true) : isPySpace c = false := by
  simp only [isPyDigit, Bool.and_eq_true, decide_eq_true_eq] at h
  simp only [isPySpace, Bool.or_eq_false_iff, decide_eq_false_iff_not]
  omega

theorem bookChar_of_space {c : Char} (h : isPySpace c = true) : isBookChar c = true := by
  simp [isBookChar, h]

theorem not_digit_of_bookChar {c : Char} (h : isBookChar c = true) : isPyDigit c = false := by
  rcases Bool.eq_false_or_eq_true (isPyDigit c) with h2 | h2
  · rw [not_bookChar_of_digit h2] at h; cases h
  · exact h2

/-!  `takeWhile` / `dropWhile` facts.  -/

theorem takeWhile_all {p : Char → Bool} : ∀ {l : Str}, (∀ c ∈ l, p c = true) →
    l.takeWhile p = l
  | [], _ => rfl
  | c :: cs, h => by
    simp only [List.takeWhile_cons, h c (List.mem_cons_self c cs), if_true]
    exact congrArg (c :: ·) (takeWhile_all fun x hx => h x (List.mem_cons_of_mem c hx))

theorem dropWhile_all {p : Char → Bool} : ∀ {l : Str}, (∀ c ∈ l, p c = true) →
    l.dropWhile p = []
  | [], _ => rfl
  | c :: cs, h => by
    simp only [List.dropWhile_cons, h c (List.mem_cons_self c cs), if_true]
    exact dropWhile_all fun x hx => h x (List.mem_cons_of_mem c hx)

theorem takeWhile_append_stop {p : Char → Bool} {y : Char} (hy : p y = false) :
    ∀ {xs : Str}, (∀ c ∈ xs, p c = true) → ∀ (rest : Str),
      (xs ++ y :: rest).takeWhile p = xs
  | [], _, rest => by simp [List.takeWhile_cons, hy]
  | x :: xs, h, rest => by
    simp only [List.cons_append, List.takeWhile_cons, h x (List.mem_cons_self x xs), if_true]
    exact congrArg (x :: ·)
      (takeWhile_append_stop hy (fun c hc => h c (List.mem_cons_of_mem x hc)) rest)

theorem dropWhile_append_stop {p : Char → Bool} {y : Char} (hy : p y = false) :
    ∀ {xs : Str}, (∀ c ∈ xs, p c = true) → ∀ (rest : Str),
      (xs ++ y :: rest).dropWhile p = y :: rest
  | [], _, rest => by simp [List.dropWhile_cons, hy]
  | x :: xs, h, rest => by
    simp only [List.cons_append, List.dropWhile_cons, h x (List.mem_cons_self x xs), if_true]
    exact dropWhile_append_stop hy (fun c hc => h c (List.mem_cons_of_mem x hc)) rest

theorem dropWhile_append_all {p : Char → Bool} :
    ∀ {xs : Str}, (∀ c ∈ xs, p c = true) → ∀ (ys : Str),
      (xs ++ ys).dropWhile p = ys.dropWhile p
  | [], _, ys => rfl
  | x :: xs, h, ys => by
    simp only [List.cons_append, List.dropWhile_cons, h x (List.mem_cons_self x xs), if_true]
    exact dropWhile_append_all (fun c hc => h c (List.mem_cons_of_mem x hc)) ys

/-!  Strip facts.  -/

theorem pyLStrip_eq_self {l : Str} (h : HeadNotSpace l) : pyLStrip l = l := by
  cases l with
  | nil => rfl
  | cons c cs => simp [pyLStrip, List.dropWhile_cons, h c rfl]

theorem pyRStrip_eq_self {l : Str} (h : ∀ c, l.getLast? = some c → isPySpace c = false) :
    pyRStrip l = l := by
  cases hr : l.reverse with
  | nil =>
    have h0 : l = [] := List.reverse_eq_nil_iff.mp hr
    subst h0
    rfl
  | cons c cs =>
    have hc : l.getLast? = some c := by rw [← List.head?_reverse, hr]; rfl
    have : l.reverse.dropWhile isPySpace = l.reverse := by
      rw [hr]; simp [List.dropWhile_cons, h c hc]
    simp [pyRStrip, this]

theorem pyRStrip_append_spaces {sp : Str} (h : ∀ c ∈ sp, isPySpace c = true) (xs : Str) :
    pyRStrip (xs ++ sp) = pyRStrip xs := by
  unfold pyRStrip
  rw [List.reverse_append, dropWhile_append_all (fun c hc => h c (List.mem_reverse.mp hc))]

theorem pyStrip_eq_self {l : Str} (h1 : HeadNotSpace l)
    (h2 : ∀ c, l.getLast? = some c → isPySpace c = false) : pyStrip l = l := by
  rw [pyStrip, pyLStrip_eq_self h1, pyRStrip_eq_self h2]

theorem pyStrip_append_spaces {sp : Str} (hsp : ∀ c ∈ sp, isPySpace c = true) {b : Str}
    (hb : HeadNotSpace b) : pyStrip (b ++ sp) = pyStrip b := by
  cases b with
  | nil =>
    show pyStrip sp = pyStrip []
    unfold pyStrip pyLStrip
    rw [dropWhile_all hsp]
    rfl
  | cons c cs =>
    have h1 : HeadNotSpace (c :: cs ++ sp) := by
      intro x hx
      simp only [List.cons_append, List.head?_cons, Option.some.injEq] at hx
      subst hx
      exact hb c rfl
    rw [pyStrip, pyStrip, pyLStrip_eq_self h1, pyLStrip_eq_self hb,
      pyRStrip_append_spaces hsp]

/-!  Evaluation of the matcher on well-shaped inputs.  -/

theorem matchDash_dash (g1 cds vds wds : Str) (hw : wds ≠ [])
    (hwA : ∀ c ∈ wds, isPyDigit c = true) :
    matchDash g1 cds vds ('-' :: wds) = some ⟨g1, cds, vds, some wds⟩ := by
  simp only [matchDash]
  rw [takeWhile_all hwA, dropWhile_all hwA, (List.isEmpty_eq_false).mpr hw]
  simp

theorem matchCore_eval (pre core sp cds vds : Str) (t : Option Str)
    (hcore : core ≠ []) (hcoreA : ∀ c ∈ core, isBookChar c = true)
    (hsp : sp ≠ []) (hspA : ∀ c ∈ sp, isPySpace c = true)
    (hcds : cds ≠ []) (hcdsA : ∀ c ∈ cds, isPyDigit c = true)
    (hvds : vds ≠ []) (hvdsA : ∀ c ∈ vds, isPyDigit c = true)
    (ht : ∀ wds, t = some wds → wds ≠ [] ∧ ∀ c ∈ wds, isPyDigit c = true) :
    matchCore pre (core ++ (sp ++ (cds ++ ':' :: (vds ++ tailStr t)))) =
      some ⟨pre ++ (core ++ sp), cds, vds, t⟩ := by
  obtain ⟨d, ds, rfl⟩ := List.exists_cons_of_ne_nil hcds
  have hd : isPyDigit d = true := hcdsA d (List.mem_cons_self d ds)
  have hdsA : ∀ c ∈ ds, isPyDigit c = true :=
    fun c hc => hcdsA c (List.mem_cons_of_mem d hc)
  have hbs : ∀ c ∈ core ++ sp, isBookChar c = true := by
    intro c hc
    rcases List.mem_append.mp hc with h | h
    · exact hcoreA c h
    · exact bookChar_of_space (hspA c h)
  have hrest : core ++ (sp ++ ((d :: ds) ++ ':' :: (vds ++ tailStr t)))
      = (core ++ sp) ++ d :: (ds ++ ':' :: (vds ++ tailStr t)) := by
    simp [List.append_assoc]
  have htw : (((core ++ sp) ++ d :: (ds ++ ':' :: (vds ++ tailStr t))).takeWhile isBookChar)
      = core ++ sp := takeWhile_append_stop (not_bookChar_of_digit hd) hbs _
  have hdw : (((core ++ sp) ++ d :: (ds ++ ':' :: (vds ++ tailStr t))).dropWhile isBookChar)
      = d :: (ds ++ ':' :: (vds ++ tailStr t)) :=
    dropWhile_append_stop (not_bookChar_of_digit hd) hbs _
  have hlast : lastIsSpace (core ++ sp) = true := by
    unfold lastIsSpace
    rw [List.getLast?_append_of_ne_nil _ hsp, List.getLast?_eq_getLast sp hsp]
    exact hspA _ (List.getLast_mem hsp)
  have hlen : 2 ≤ (core ++ sp).length := by
    rw [List.length_append]
    have h1 := List.length_pos.mpr hcore
    have h2 := List.length_pos.mpr hsp
    omega
  rw [show (d :: ds) ++ ':' :: (vds ++ tailStr t) = d :: (ds ++ ':' :: (vds ++ tailStr t))
    from rfl] at hrest ⊢
  rw [hrest]
  unfold matchCore
  rw [htw, hdw, hlast, decide_eq_true hlen]
  simp only [Bool.and_self, if_true]
  have hcds2 : (d :: (ds ++ ':' :: (vds ++ tailStr t))).takeWhile isPyDigit = d :: ds := by
    rw [show d :: (ds ++ ':' :: (vds ++ tailStr t)) = (d :: ds) ++ ':' :: (vds ++ tailStr t)
      from rfl]
    exact takeWhile_append_stop (by decide) hcdsA _
  have hcds3 : (d :: (ds ++ ':' :: (vds ++ tailStr t))).dropWhile isPyDigit
      = ':' :: (vds ++ tailStr t) := by
    rw [show d :: (ds ++ ':' :: (vds ++ tailStr t)) = (d :: ds) ++ ':' :: (vds ++ tailStr t)
      from rfl]
    exact dropWhile_append_stop (by decide) hcdsA _
  unfold matchChapter
  rw [hcds2, hcds3]
  simp only [List.isEmpty_cons, if_false, Bool.false_eq_true]
  unfold matchVerse
  cases t with
  | none =>
    simp only [tailStr, List.append_nil]
    rw [takeWhile_all hvdsA, dropWhile_all hvdsA,
      (List.isEmpty_eq_false).mpr hvds]
    simp only [if_false, Bool.false_eq_true]
    rfl
  | some wds =>
    obtain ⟨hw, hwA⟩ := ht wds rfl
    simp only [tailStr]
    rw [takeWhile_append_stop (by decide) hvdsA, dropWhile_append_stop (by decide) hvdsA,
      (List.isEmpty_eq_false).mpr hvds]
    simp only [if_false, Bool.false_eq_true]
    exact matchDash_dash _ _ _ _ hw hwA

theorem matchRef_eq_matchCore_of_head {c : Char} (rest : Str) (h : isPyDigit c = false) :
    matchRef (c :: rest) = matchCore [] (c :: rest) := by
  cases rest with
  | nil => rfl
  | cons c1 r => simp [matchRef, h]

theorem headNotSpace_append {b : Str} (hb : HeadNotSpace b) (hne : b ≠ []) (X : Str) :
    HeadNotSpace (b ++ X) := by
  obtain ⟨c, b', rfl⟩ := List.exists_cons_of_ne_nil hne
  intro x hx
  simp only [List.cons_append, List.head?_cons, Option.some.injEq] at hx
  subst hx
  exact hb c rfl

theorem getLast?_vds_tail (vds : Str) (t : Option Str) (hvds : vds ≠ [])
    (hvdsA : ∀ c ∈ vds, isPyDigit c = true)
    (ht : ∀ wds, t = some wds → wds ≠ [] ∧ ∀ c ∈ wds, isPyDigit c = true) :
    ∃ c, (vds ++ tailStr t).getLast? = some c ∧ isPyDigit c = true := by
  cases t with
  | none =>
    simp only [tailStr, List.append_nil]
    exact ⟨vds.getLast hvds, List.getLast?_eq_getLast vds hvds, hvdsA _ (List.getLast_mem hvds)⟩
  | some wds =>
    obtain ⟨hw, hwA⟩ := ht wds rfl
    simp only [tailStr]
    rw [List.getLast?_append_of_ne_nil _ (by simp : ('-' :: wds : Str) ≠ [])]
    rw [show ('-' :: wds : Str) = ['-'] ++ wds from rfl, List.getLast?_append_of_ne_nil _ hw]
    exact ⟨wds.getLast hw, List.getLast?_eq_getLast wds hw, hwA _ (List.getLast_mem hw)⟩

theorem parse_verse_reference_eval (b sp cds vds : Str) (t : Option Str)
    (hb : BookShape b) (hh : HeadNotSpace b)
    (hsp : sp ≠ []) (hspA : ∀ c ∈ sp, isPySpace c = true)
    (hcds : cds ≠ []) (hcdsA : ∀ c ∈ cds, isPyDigit c = true)
    (hvds : vds ≠ []) (hvdsA : ∀ c ∈ vds, isPyDigit c = true)
    (ht : ∀ wds, t = some wds → wds ≠ [] ∧ ∀ c ∈ wds, isPyDigit c = true) :
    parse_verse_reference (b ++ (sp ++ (cds ++ ':' :: (vds ++ tailStr t)))) =
      some ⟨pyStrip b, (digitsVal cds : Int), (digitsVal vds : Int),
            (digitsVal (t.getD vds) : Int)⟩ := by
  obtain ⟨pre, core, rfl, hpre, hcore, hcoreA⟩ := hb
  have hbne : pre ++ core ≠ [] := fun h => hcore (List.append_eq_nil.mp h).2
  have hX2 : cds ++ ':' :: (vds ++ tailStr t) ≠ [] :=
    fun h => hcds (List.append_eq_nil.mp h).1
  have hX1 : sp ++ (cds ++ ':' :: (vds ++ tailStr t)) ≠ [] :=
    fun h => hsp (List.append_eq_nil.mp h).1
  have hheadS : HeadNotSpace ((pre ++ core) ++ (sp ++ (cds ++ ':' :: (vds ++ tailStr t)))) :=
    headNotSpace_append hh hbne _
  have hlastS : ∀ c,
      ((pre ++ core) ++ (sp ++ (cds ++ ':' :: (vds ++ tailStr t)))).getLast? = some c →
      isPySpace c = false := by
    intro c hc
    obtain ⟨c', hc', hd'⟩ := getLast?_vds_tail vds t hvds hvdsA ht
    rw [List.getLast?_append_of_ne_nil _ hX1, List.getLast?_append_of_ne_nil _ hX2,
      List.getLast?_append_of_ne_nil _ (List.cons_ne_nil ':' (vds ++ tailStr t)),
      show (':' :: (vds ++ tailStr t) : Str) = [':'] ++ (vds ++ tailStr t) from rfl,
      List.getLast?_append_of_ne_nil _ (fun h => hvds (List.append_eq_nil.mp h).1), hc']
      at hc
    cases hc
    exact not_space_of_digit hd'
  have hstrip : pyStrip ((pre ++ core) ++ (sp ++ (cds ++ ':' :: (vds ++ tailStr t))))
      = (pre ++ core) ++ (sp ++ (cds ++ ':' :: (vds ++ tailStr t))) :=
    pyStrip_eq_self hheadS hlastS
  have hmatch : matchRef ((pre ++ core) ++ (sp ++ (cds ++ ':' :: (vds ++ tailStr t)))) =
      some ⟨pre ++ (core ++ sp), cds, vds, t⟩ := by
    rcases hpre with rfl | ⟨d, w, rfl, hd, hw⟩
    · obtain ⟨c0, core', rfl⟩ := List.exists_cons_of_ne_nil hcore
      have hb0 : isBookChar c0 = true := hcoreA c0 (List.mem_cons_self _ _)
      have hnd : isPyDigit c0 = false := not_digit_of_bookChar hb0
      rw [show (([] ++ (c0 :: core') : Str) ++ (sp ++ (cds ++ ':' :: (vds ++ tailStr t))))
          = c0 :: (core' ++ (sp ++ (cds ++ ':' :: (vds ++ tailStr t)))) by simp]
      rw [matchRef_eq_matchCore_of_head _ hnd]
      rw [show c0 :: (core' ++ (sp ++ (cds ++ ':' :: (vds ++ tailStr t))))
          = (c0 :: core') ++ (sp ++ (cds ++ ':' :: (vds ++ tailStr t))) from rfl]
      rw [matchCore_eval [] (c0 :: core') sp cds vds t hcore hcoreA hsp hspA hcds hcdsA
        hvds hvdsA ht]
    · rw [show (([d, w] ++ core) ++ (sp ++ (cds ++ ':' :: (vds ++ tailStr t))))
          = d :: w :: (core ++ (sp ++ (cds ++ ':' :: (vds ++ tailStr t)))) by simp]
      have hcore2 : core ≠ [] := hcore
      simp only [matchRef, hd, hw, if_true]
      rw [matchCore_eval [d, w] core sp cds vds t hcore2 hcoreA hsp hspA hcds hcdsA
        hvds hvdsA ht]
  unfold parse_verse_reference
  rw [hstrip, hmatch]
  have hbook : pyStrip (pre ++ (core ++ sp)) = pyStrip (pre ++ core) := by
    rw [← List.append_assoc]
    exact pyStrip_append_spaces hspA hh
  cases t with
  | none => simp [hbook, Option.getD]
  | some wds => simp [hbook, Option.getD]

/-!  Evaluation of the resolver.  -/

theorem pyIdx_nonneg {α : Type} (l : List α) {i : Int} (h0 : 0 ≤ i) : pyIdx l i = i := by
  unfold pyIdx
  rw [if_neg (by omega)]

theorem pyIndex_eq_getD {α : Type} (l : List α) (i : Int) (d : α) (h0 : 0 ≤ i)
    (h1 : i < (l.length : Int)) : pyIndex l i = some (l.getD i.toNat d) := by
  have hn : i.toNat < l.length := by omega
  unfold pyIndex
  rw [pyIdx_nonneg l h0, if_pos ⟨h0, h1⟩]
  rw [List.getElem?_eq_getElem hn, List.getD_eq_getElem?_getD,
    List.getElem?_eq_getElem hn]
  rfl

theorem pyIndex_neg_one {α : Type} (l : List α) (h : l ≠ []) :
    pyIndex l (-1) = some (l.getLast h) := by
  have hl : 0 < l.length := List.length_pos.mpr h
  have hn : l.length - 1 < l.length := by omega
  have hj : pyIdx l (-1) = (l.length : Int) + -1 := by
    unfold pyIdx
    rw [if_pos (by norm_num)]
  unfold pyIndex
  rw [hj, if_pos ⟨by omega, by omega⟩]
  have htn : ((l.length : Int) + -1).toNat = l.length - 1 := by omega
  rw [htn, List.getElem?_eq_getElem hn, List.getLast_eq_getElem]

theorem pyRange_mem_lower {a b v : Int} (h : v ∈ pyRange a b) : a ≤ v := by
  unfold pyRange at h
  obtain ⟨i, _, rfl⟩ := List.mem_map.mp h
  omega

theorem pyRange_length (a b : Int) : (pyRange a b).length = (b - a).toNat := by
  unfold pyRange
  rw [List.length_map, List.length_range]

theorem extractLoop_eval (parsed : ParsedRef) (cvs : List Str) :
    ∀ L : List Int, (∀ v ∈ L, 1 ≤ v) →
      extractLoop parsed cvs L =
        ((L.filter (fun v => decide ((cvs.length : Int) < v))).map
           (fun v => Warning.verseNotFound v parsed.book parsed.chapter),
         some ((L.filter (fun v => decide (v ≤ (cvs.length : Int)))).map
           (fun v => mkExtracted parsed v (cvs.getD (v - 1).toNat []))))
  | [], _ => rfl
  | v :: vs, hL => by
    have hv1 : 1 ≤ v := hL v (List.mem_cons_self v vs)
    have ih := extractLoop_eval parsed cvs vs (fun x hx => hL x (List.mem_cons_of_mem v hx))
    by_cases hle : v ≤ (cvs.length : Int)
    · have hguard : v - 1 < (cvs.length : Int) := by omega
      have hidx : pyIndex cvs (v - 1) = some (cvs.getD (v - 1).toNat []) :=
        pyIndex_eq_getD cvs (v - 1) [] (by omega) hguard
      unfold extractLoop
      rw [if_pos hguard, hidx, ih]
      simp only [List.filter_cons, decide_eq_true_eq]
      rw [if_neg (by omega), if_pos hle]
      simp [Option.map]
    · have hguard : ¬ (v - 1 < (cvs.length : Int)) := by omega
      unfold extractLoop
      rw [if_neg hguard, ih]
      simp only [List.filter_cons, decide_eq_true_eq]
      rw [if_pos (by omega), if_neg hle]
      simp

theorem filter_le_add_filter_lt (n : Int) : ∀ L : List Int,
    (L.filter (fun v => decide (v ≤ n))).length
      + (L.filter (fun v => decide (n < v))).length = L.length
  | [] => rfl
  | v :: vs => by
    have ih := filter_le_add_filter_lt n vs
    simp only [List.filter_cons, decide_eq_true_eq]
    by_cases h : v ≤ n
    · rw [if_pos h, if_neg (by omega)]
      simp only [List.length_cons]
      omega
    · rw [if_neg h, if_pos (by omega)]
      simp only [List.length_cons]
      omega

theorem processRef_eval (kjv_data : List BookEntry) (s : Str) (r : ParsedRef)
    (ab : Str) (entry : BookEntry)
    (hp : parse_verse_reference s = some r)
    (hab : List.lookup r.book BOOK_ABBREV = some ab)
    (hfind : kjv_data.find? (fun e => e.abbr == ab) = some entry)
    (hC1 : 1 ≤ r.chapter) (hC2 : r.chapter ≤ (entry.chapters.length : Int)) :
    processRef kjv_data s =
      extractLoop r (entry.chapters.getD (r.chapter - 1).toNat [])
        (pyRange r.start_verse (r.end_verse + 1)) := by
  unfold processRef
  rw [hp]
  dsimp only
  rw [hab]
  dsimp only
  rw [hfind]
  dsimp only
  rw [if_pos (by omega)]
  rw [pyIndex_eq_getD entry.chapters (r.chapter - 1) [] (by omega) (by omega)]

theorem processRef_eval_chapter0 (kjv_data : List BookEntry) (s : Str) (r : ParsedRef)
    (ab : Str) (entry : BookEntry)
    (hp : parse_verse_reference s = some r)
    (hab : List.lookup r.book BOOK_ABBREV = some ab)
    (hfind : kjv_data.find? (fun e => e.abbr == ab) = some entry)
    (hc : r.chapter = 0) (hne : entry.chapters ≠ []) :
    processRef kjv_data s =
      extractLoop r (entry.chapters.getLast hne)
        (pyRange r.start_verse (r.end_verse + 1)) := by
  have hl : 0 < entry.chapters.length := List.length_pos.mpr hne
  unfold processRef
  rw [hp]
  dsimp only
  rw [hab]
  dsimp only
  rw [hfind]
  dsimp only
  rw [if_pos (by rw [hc]; omega)]
  rw [show r.chapter - 1 = -1 by omega, pyIndex_neg_one entry.chapters hne]

/-!  Inversion of the matcher: a successful match decomposes the input.  -/

theorem lastIsSpace_inv {l : Str} (h : lastIsSpace l = true) :
    ∃ c, l.getLast? = some c ∧ isPySpace c = true := by
  unfold lastIsSpace at h
  cases hl : l.getLast? with
  | none => rw [hl] at h; cases h
  | some c => rw [hl] at h; exact ⟨c, rfl, h⟩

theorem matchDash_inv {g1 cds vds rest5 : Str} {g : RefGroups}
    (h : matchDash g1 cds vds rest5 = some g) :
    (rest5 = [] ∧ g = ⟨g1, cds, vds, none⟩) ∨
    (∃ wds, rest5 = '-' :: wds ∧ wds ≠ [] ∧ (∀ c ∈ wds, isPyDigit c = true) ∧
      g = ⟨g1, cds, vds, some wds⟩) := by
  cases rest5 with
  | nil =>
    left
    have h' : some (⟨g1, cds, vds, none⟩ : RefGroups) = some g := h
    injection h' with h'
    exact ⟨rfl, h'.symm⟩
  | cons c rest6 =>
    simp only [matchDash] at h
    by_cases hc : c = '-'
    · subst hc
      rw [if_pos rfl] at h
      by_cases he : (rest6.takeWhile isPyDigit).isEmpty = true
      · rw [if_pos he] at h
        exact Option.noConfusion h
      · rw [if_neg he] at h
        cases hd : rest6.dropWhile isPyDigit with
        | nil =>
          rw [hd] at h
          right
          have heq : rest6 = rest6.takeWhile isPyDigit := by
            conv_lhs => rw [← List.takeWhile_append_dropWhile isPyDigit rest6]
            rw [hd, List.append_nil]
          have h' : some (⟨g1, cds, vds, some (rest6.takeWhile isPyDigit)⟩ : RefGroups)
              = some g := h
          injection h' with h'
          refine ⟨rest6.takeWhile isPyDigit, by rw [← heq], ?_, ?_, h'.symm⟩
          · intro hnil
            rw [hnil] at he
            exact he rfl
          · exact fun c hc => List.mem_takeWhile_imp hc
        | cons x xs =>
          rw [hd] at h
          exact Option.noConfusion h
    · rw [if_neg hc] at h
      exact Option.noConfusion h

theorem matchVerse_inv {g1 cds rest4 : Str} {g : RefGroups}
    (h : matchVerse g1 cds rest4 = some g) :
    ∃ vds rest5, rest4 = vds ++ rest5 ∧ vds ≠ [] ∧ (∀ c ∈ vds, isPyDigit c = true) ∧
      matchDash g1 cds vds rest5 = some g := by
  unfold matchVerse at h
  by_cases he : (rest4.takeWhile isPyDigit).isEmpty = true
  · rw [if_pos he] at h
    exact Option.noConfusion h
  · rw [if_neg he] at h
    refine ⟨rest4.takeWhile isPyDigit, rest4.dropWhile isPyDigit,
      (List.takeWhile_append_dropWhile _ _).symm, ?_,
      fun c hc => List.mem_takeWhile_imp hc, h⟩
    intro hnil
    rw [hnil] at he
    exact he rfl

theorem matchChapter_inv {g1 rest2 : Str} {g : RefGroups}
    (h : matchChapter g1 rest2 = some g) :
    ∃ cds rest4, rest2 = cds ++ ':' :: rest4 ∧ cds ≠ [] ∧ (∀ c ∈ cds, isPyDigit c = true) ∧
      matchVerse g1 cds rest4 = some g := by
  unfold matchChapter at h
  by_cases he : (rest2.takeWhile isPyDigit).isEmpty = true
  · rw [if_pos he] at h
    exact Option.noConfusion h
  · rw [if_neg he] at h
    cases hd : rest2.dropWhile isPyDigit with
    | nil =>
      rw [hd] at h
      exact Option.noConfusion h
    | cons c rest4 =>
      rw [hd] at h
      dsimp only at h
      by_cases hc : c = ':'
      · subst hc
        rw [if_pos rfl] at h
        refine ⟨rest2.takeWhile isPyDigit, rest4, ?_, ?_,
          fun c hc => List.mem_takeWhile_imp hc, h⟩
        · conv_lhs => rw [← List.takeWhile_append_dropWhile isPyDigit rest2]
          rw [hd]
        · intro hnil
          rw [hnil] at he
          exact he rfl
      · rw [if_neg hc] at h
        exact Option.noConfusion h

theorem matchCore_inv {pre rest : Str} {g : RefGroups}
    (h : matchCore pre rest = some g) :
    ∃ run rest2, rest = run ++ rest2 ∧ 2 ≤ run.length ∧
      (∀ c ∈ run, isBookChar c = true) ∧ lastIsSpace run = true ∧
      matchChapter (pre ++ run) rest2 = some g := by
  unfold matchCore at h
  by_cases hcond : (lastIsSpace (rest.takeWhile isBookChar)
      && decide (2 ≤ (rest.takeWhile isBookChar).length)) = true
  · rw [if_pos hcond] at h
    obtain ⟨h1, h2⟩ := Bool.and_eq_true_iff.mp hcond
    exact ⟨rest.takeWhile isBookChar, rest.dropWhile isBookChar,
      (List.takeWhile_append_dropWhile _ _).symm, of_decide_eq_true h2,
      fun c hc => List.mem_takeWhile_imp hc, h1, h⟩
  · rw [if_neg hcond] at h
    exact Option.noConfusion h

theorem matchRef_inv {cs : Str} {g : RefGroups} (h : matchRef cs = some g) :
    ∃ pre rest, cs = pre ++ rest ∧
      (pre = [] ∨ ∃ d w, pre = [d, w] ∧ isPyDigit d = true ∧ isPySpace w = true) ∧
      matchCore pre rest = some g := by
  cases cs with
  | nil => exact Option.noConfusion h
  | cons c0 cs' =>
    cases cs' with
    | nil => exact ⟨[], [c0], rfl, Or.inl rfl, h⟩
    | cons c1 rest =>
      simp only [matchRef] at h
      by_cases hd0 : isPyDigit c0 = true
      · rw [if_pos hd0] at h
        by_cases hs1 : isPySpace c1 = true
        · rw [if_pos hs1] at h
          exact ⟨[c0, c1], rest, rfl, Or.inr ⟨c0, c1, rfl, hd0, hs1⟩, h⟩
        · rw [if_neg hs1] at h
          exact Option.noConfusion h
      · rw [if_neg hd0] at h
        exact ⟨[], c0 :: c1 :: rest, rfl, Or.inl rfl, h⟩

theorem matchRef_some_shape {cs : Str} {g : RefGroups} (h : matchRef cs = some g) :
    ∃ b sp cds vds tl,
      cs = b ++ sp ++ cds ++ ':' :: (vds ++ tl) ∧
      BookShape b ∧
      sp ≠ [] ∧ (∀ c ∈ sp, isPySpace c = true) ∧
      cds ≠ [] ∧ (∀ c ∈ cds, isPyDigit c = true) ∧
      vds ≠ [] ∧ (∀ c ∈ vds, isPyDigit c = true) ∧
      (tl = [] ∨ ∃ wds, tl = '-' :: wds ∧ wds ≠ [] ∧ ∀ c ∈ wds, isPyDigit c = true) := by
  obtain ⟨pre, rest, rfl, hpre, hcore⟩ := matchRef_inv h
  obtain ⟨run, rest2, rfl, hrun2, hrunA, hrunLast, hchap⟩ := matchCore_inv hcore
  obtain ⟨cds, rest4, rfl, hcds, hcdsA, hverse⟩ := matchChapter_inv hchap
  obtain ⟨vds, rest5, rfl, hvds, hvdsA, hdash⟩ := matchVerse_inv hverse
  have hrunNe : run ≠ [] := by
    intro h0
    rw [h0] at hrun2
    simp at hrun2
  obtain ⟨cl, hcl, hclSp⟩ := lastIsSpace_inv hrunLast
  have hclLast : run.getLast hrunNe = cl := by
    have h2 := List.getLast?_eq_getLast run hrunNe
    rw [h2] at hcl
    exact (Option.some.injEq _ _).mp hcl
  have hsplit : run = run.dropLast ++ [cl] := by
    conv_lhs => rw [← List.dropLast_append_getLast hrunNe]
    rw [hclLast]
  have hdlNe : run.dropLast ≠ [] := by
    apply List.ne_nil_of_length_pos
    have : run.length = run.dropLast.length + 1 := by
      conv_lhs => rw [hsplit]
      rw [List.length_append]
      simp
    omega
  refine ⟨pre ++ run.dropLast, [cl], cds, vds, rest5, ?_, ?_, List.cons_ne_nil _ _,
    ?_, hcds, hcdsA, hvds, hvdsA, ?_⟩
  · conv_lhs => rw [hsplit]
    simp [List.append_assoc]
  · exact ⟨pre, run.dropLast, rfl, hpre, hdlNe,
      fun c hc => hrunA c (List.mem_of_mem_dropLast hc)⟩
  · intro c hc
    rw [List.mem_singleton] at hc
    subst hc
    exact hclSp
  · rcases matchDash_inv hdash with ⟨h5, _⟩ | ⟨wds, h5, hw, hwA, _⟩
    · exact Or.inl h5
    · exact Or.inr ⟨wds, h5, hw, hwA⟩

/-- A successful parse implies the reference string had the supported shape. -/
theorem parse_some_validShape {s : Str} {r : ParsedRef}
    (h : parse_verse_reference s = some r) : ValidShape s := by
  unfold parse_verse_reference at h
  cases hm : matchRef (pyStrip s) with
  | none => rw [hm] at h; exact Option.noConfusion h
  | some g =>
    obtain ⟨b, sp, cds, vds, tl, heq, h1, h2, h3, h4, h5, h6, h7, h8⟩ :=
      matchRef_some_shape hm
    exact ⟨b, sp, cds, vds, tl, heq, h1, h2, h3, h4, h5, h6, h7, h8⟩

/-!  Annotation stripping: structural facts and idempotence.  -/

theorem dropThroughRBrace_length : ∀ {cs rest : Str},
    dropThroughRBrace cs = some rest → rest.length < cs.length
  | [], _, h => by cases h
  | c :: cs, rest, h => by
    unfold dropThroughRBrace at h
    by_cases hc : c = '}'
    · rw [if_pos hc] at h
      injection h with h
      subst h
      simp
    · rw [if_neg hc] at h
      have := dropThroughRBrace_length h
      simp only [List.length_cons]
      omega

theorem dropThroughRBrace_none_iff : ∀ {cs : Str},
    dropThroughRBrace cs = none ↔ '}' ∉ cs
  | [] => by simp [dropThroughRBrace]
  | c :: cs => by
    unfold dropThroughRBrace
    by_cases hc : c = '}'
    · subst hc
      simp
    · rw [if_neg hc]
      rw [dropThroughRBrace_none_iff]
      simp [List.mem_cons, hc, Ne.symm]

theorem removeAnnotationsGo_congr : ∀ (f1 f2 : Nat) (cs : Str),
    cs.length ≤ f1 → cs.length ≤ f2 → removeAnnotationsGo f1 cs = removeAnnotationsGo f2 cs
  | f1, f2, [], _, _ => by cases f1 <;> cases f2 <;> rfl
  | 0, f2, c :: cs, h1, _ => by simp at h1
  | f1 + 1, 0, c :: cs, _, h2 => by simp at h2
  | f1 + 1, f2 + 1, c :: cs, h1, h2 => by
    simp only [List.length_cons] at h1 h2
    simp only [removeAnnotationsGo]
    by_cases hc : c = '{'
    · rw [if_pos hc, if_pos hc]
      cases hd : dropThroughRBrace cs with
      | some rest =>
        have hlt := dropThroughRBrace_length hd
        exact removeAnnotationsGo_congr f1 f2 rest (by omega) (by omega)
      | none => rfl
    · rw [if_neg hc, if_neg hc]
      exact congrArg (c :: ·) (removeAnnotationsGo_congr f1 f2 cs (by omega) (by omega))

theorem removeAnnotations_cons_brace_some {cs rest : Str}
    (hd : dropThroughRBrace cs = some rest) :
    removeAnnotations ('{' :: cs) = removeAnnotations rest := by
  unfold removeAnnotations
  show removeAnnotationsGo (cs.length + 1) ('{' :: cs) = _
  simp only [removeAnnotationsGo, if_pos rfl, hd]
  exact removeAnnotationsGo_congr cs.length rest.length rest
    (by have := dropThroughRBrace_length hd; omega) le_rfl

theorem removeAnnotations_cons_brace_none {cs : Str}
    (hd : dropThroughRBrace cs = none) :
    removeAnnotations ('{' :: cs) = '{' :: cs := by
  unfold removeAnnotations
  show removeAnnotationsGo (cs.length + 1) ('{' :: cs) = _
  simp only [removeAnnotationsGo, if_pos rfl, hd]
  simp

theorem removeAnnotations_cons_other {c : Char} (cs : Str) (hc : c ≠ '{') :
    removeAnnotations (c :: cs) = c :: removeAnnotations cs := by
  unfold removeAnnotations
  show removeAnnotationsGo (cs.length + 1) (c :: cs) = _
  simp only [removeAnnotationsGo, if_neg hc]

theorem okBraces_go : ∀ (fuel : Nat) (cs : Str), cs.length ≤ fuel →
    okBraces (removeAnnotationsGo fuel cs) = true
  | fuel, [], _ => by cases fuel <;> rfl
  | 0, c :: cs, h => by simp at h
  | fuel + 1, c :: cs, h => by
    simp only [List.length_cons] at h
    simp only [removeAnnotationsGo]
    by_cases hc : c = '{'
    · rw [if_pos hc]
      cases hd : dropThroughRBrace cs with
      | some rest =>
        have hlt := dropThroughRBrace_length hd
        exact okBraces_go fuel rest (by omega)
      | none =>
        subst hc
        simp only [okBraces, if_pos rfl, hd, Option.isNone_none]
        simp
    · rw [if_neg hc]
      simp only [okBraces, if_neg hc]
      exact okBraces_go fuel cs (by omega)

theorem okBraces_removeAnnotations (cs : Str) : okBraces (removeAnnotations cs) = true :=
  okBraces_go cs.length cs le_rfl

theorem okBraces_of_no_rbrace : ∀ {l : Str}, '}' ∉ l → okBraces l = true
  | [], _ => rfl
  | c :: cs, h => by
    have hcs : '}' ∉ cs := fun hm => h (List.mem_cons_of_mem c hm)
    simp only [okBraces]
    by_cases hc : c = '{'
    · rw [if_pos hc, dropThroughRBrace_none_iff.mpr hcs]
      rfl
    · rw [if_neg hc]
      exact okBraces_of_no_rbrace hcs

theorem okBraces_append_left : ∀ {a b : Str}, okBraces (a ++ b) = true → okBraces a = true
  | [], _, _ => rfl
  | c :: a', b, h => by
    simp only [List.cons_append, okBraces] at h ⊢
    by_cases hc : c = '{'
    · rw [if_pos hc] at h ⊢
      rw [Option.isNone_iff_eq_none] at h ⊢
      rw [dropThroughRBrace_none_iff] at h ⊢
      exact fun hm => h (List.mem_append.mpr (Or.inl hm))
    · rw [if_neg hc] at h ⊢
      exact okBraces_append_left h

theorem okBraces_append_right : ∀ {a b : Str}, okBraces (a ++ b) = true → okBraces b = true
  | [], _, h => h
  | c :: a', b, h => by
    simp only [List.cons_append, okBraces] at h
    by_cases hc : c = '{'
    · rw [if_pos hc] at h
      rw [Option.isNone_iff_eq_none, dropThroughRBrace_none_iff] at h
      exact okBraces_of_no_rbrace fun hm => h (List.mem_append.mpr (Or.inr hm))
    · rw [if_neg hc] at h
      exact okBraces_append_right h

theorem removeAnnotations_of_okBraces : ∀ {t : Str}, okBraces t = true →
    removeAnnotations t = t
  | [], _ => rfl
  | c :: cs, h => by
    simp only [okBraces] at h
    by_cases hc : c = '{'
    · subst hc
      rw [if_pos rfl, Option.isNone_iff_eq_none] at h
      exact removeAnnotations_cons_brace_none h
    · rw [if_neg hc] at h
      rw [removeAnnotations_cons_other cs hc, removeAnnotations_of_okBraces h]

theorem dropWhile_is_suffix {p : Char → Bool} : ∀ l : Str, ∃ pre, pre ++ l.dropWhile p = l
  | [] => ⟨[], rfl⟩
  | c :: cs => by
    by_cases hc : p c = true
    · obtain ⟨pre, hpre⟩ := dropWhile_is_suffix (p := p) cs
      refine ⟨c :: pre, ?_⟩
      rw [List.dropWhile_cons, if_pos hc, List.cons_append, hpre]
    · exact ⟨[], by rw [List.dropWhile_cons, if_neg hc, List.nil_append]⟩

theorem pyRStrip_is_prefix (l : Str) :
    pyRStrip l ++ (l.reverse.takeWhile isPySpace).reverse = l := by
  unfold pyRStrip
  rw [← List.reverse_append, List.takeWhile_append_dropWhile, List.reverse_reverse]

theorem okBraces_pyStrip {t : Str} (h : okBraces t = true) : okBraces (pyStrip t) = true := by
  unfold pyStrip pyLStrip
  obtain ⟨pre, hpre⟩ := dropWhile_is_suffix (p := isPySpace) t
  have h1 : okBraces (t.dropWhile isPySpace) = true :=
    okBraces_append_right (a := pre) (by rw [hpre]; exact h)
  have h2 := pyRStrip_is_prefix (t.dropWhile isPySpace)
  exact okBraces_append_left (by rw [h2]; exact h1)

theorem dropWhile_head_false {p : Char → Bool} : ∀ {l : Str} {c : Char},
    (l.dropWhile p).head? = some c → p c = false
  | [], c, h => by cases h
  | a :: l, c, h => by
    by_cases ha : p a = true
    · rw [List.dropWhile_cons, if_pos ha] at h
      exact dropWhile_head_false h
    · rw [List.dropWhile_cons, if_neg ha] at h
      simp only [List.head?_cons, Option.some.injEq] at h
      subst h
      rcases Bool.eq_false_or_eq_true (p a) with hb | hb
      · exact absurd hb ha
      · exact hb

theorem pyStrip_head_not_space (t : Str) : HeadNotSpace (pyStrip t) := by
  intro c hc
  unfold pyStrip at hc
  obtain ⟨rest, hrest⟩ : ∃ rest, pyRStrip (pyLStrip t) = c :: rest := by
    cases hr : pyRStrip (pyLStrip t) with
    | nil => rw [hr] at hc; cases hc
    | cons a rest =>
      rw [hr] at hc
      simp only [List.head?_cons, Option.some.injEq] at hc
      subst hc
      exact ⟨rest, rfl⟩
  have hpref := pyRStrip_is_prefix (pyLStrip t)
  rw [hrest] at hpref
  have hhead : (pyLStrip t).head? = some c := by
    rw [← hpref]
    rfl
  exact dropWhile_head_false hhead

theorem pyStrip_last_not_space (t : Str) :
    ∀ c, (pyStrip t).getLast? = some c → isPySpace c = false := by
  intro c hc
  unfold pyStrip pyRStrip at hc
  rw [List.getLast?_reverse] at hc
  exact dropWhile_head_false hc

theorem pyStrip_idem (t : Str) : pyStrip (pyStrip t) = pyStrip t :=
  pyStrip_eq_self (pyStrip_head_not_space t) (pyStrip_last_not_space t)

theorem cleanVerse_idem (s : Str) : cleanVerse (cleanVerse s) = cleanVerse s := by
  unfold cleanVerse
  have h2 : okBraces (pyStrip (removeAnnotations s)) = true :=
    okBraces_pyStrip (okBraces_removeAnnotations s)
  rw [removeAnnotations_of_okBraces h2, pyStrip_idem]

/-!  Facts about the parsed record and the builder.  -/

theorem parse_nonneg {s : Str} {r : ParsedRef} (h : parse_verse_reference s = some r) :
    0 ≤ r.chapter ∧ 0 ≤ r.start_verse ∧ 0 ≤ r.end_verse := by
  unfold parse_verse_reference at h
  cases hm : matchRef (pyStrip s) with
  | none => rw [hm] at h; exact Option.noConfusion h
  | some g =>
    obtain ⟨g1, cds, vds, t⟩ := g
    rw [hm] at h
    dsimp only at h
    injection h with h
    subst h
    cases t with
    | none => exact ⟨Int.natCast_nonneg _, Int.natCast_nonneg _, Int.natCast_nonneg _⟩
    | some wds => exact ⟨Int.natCast_nonneg _, Int.natCast_nonneg _, Int.natCast_nonneg _⟩

theorem matchRef_endDigits_none_of_no_dash {cs : Str} {g : RefGroups}
    (h : matchRef cs = some g) (hnd : '-' ∉ cs) : g.endDigits = none := by
  obtain ⟨pre, rest, rfl, hpre, hcore⟩ := matchRef_inv h
  obtain ⟨run, rest2, rfl, _, _, _, hchap⟩ := matchCore_inv hcore
  obtain ⟨cds, rest4, rfl, _, _, hverse⟩ := matchChapter_inv hchap
  obtain ⟨vds, rest5, rfl, _, _, hdash⟩ := matchVerse_inv hverse
  rcases matchDash_inv hdash with ⟨h5, hg⟩ | ⟨wds, h5, _, _, hg⟩
  · rw [hg]
  · exfalso
    apply hnd
    subst h5
    simp [List.mem_append, List.mem_cons]

theorem mem_pyStrip {c : Char} {t : Str} (h : c ∈ pyStrip t) : c ∈ t := by
  have h2 := pyRStrip_is_prefix (pyLStrip t)
  have h3 : c ∈ pyLStrip t := by
    rw [← h2]
    exact List.mem_append.mpr (Or.inl h)
  obtain ⟨pre, hpre⟩ := dropWhile_is_suffix (p := isPySpace) t
  rw [← hpre]
  exact List.mem_append.mpr (Or.inr h3)

theorem parse_end_eq_start_of_no_dash {s : Str} {r : ParsedRef}
    (h : parse_verse_reference s = some r) (hnd : '-' ∉ s) :
    r.end_verse = r.start_verse := by
  unfold parse_verse_reference at h
  cases hm : matchRef (pyStrip s) with
  | none => rw [hm] at h; exact Option.noConfusion h
  | some g =>
    have hnds : '-' ∉ pyStrip s := fun hmem => hnd (mem_pyStrip hmem)
    have hnone := matchRef_endDigits_none_of_no_dash hm hnds
    obtain ⟨g1, cds, vds, t⟩ := g
    rw [hm] at h
    dsimp only at h
    injection h with h
    subst h
    dsimp only at hnone ⊢
    subst hnone
    rfl

theorem buildQuestionsFrom_length : ∀ (k : Nat) (l : List ExtractedVerse),
    (buildQuestionsFrom k l).length = l.length
  | _, [] => rfl
  | k, v :: vs => by
    simp only [buildQuestionsFrom, List.length_cons]
    rw [buildQuestionsFrom_length (k + 1) vs]

theorem buildQuestionsFrom_ids : ∀ (k : Nat) (l : List ExtractedVerse),
    (buildQuestionsFrom k l).map (fun q => q.id) = List.range' k l.length
  | _, [] => rfl
  | k, v :: vs => by
    simp only [buildQuestionsFrom, List.map_cons, List.length_cons, List.range'_succ]
    rw [buildQuestionsFrom_ids (k + 1) vs]
    rfl

theorem buildQuestionsFrom_mem : ∀ {k : Nat} {l : List ExtractedVerse} {q : QuizQuestion},
    q ∈ buildQuestionsFrom k l → ∃ idx v, v ∈ l ∧ q = toQuestion idx v
  | _, [], _, h => by cases h
  | k, v :: vs, q, h => by
    rcases List.mem_cons.mp h with rfl | h2
    · exact ⟨k, v, List.mem_cons_self _ _, rfl⟩
    · obtain ⟨i, v', hm, he⟩ := buildQuestionsFrom_mem h2
      exact ⟨i, v', List.mem_cons_of_mem _ hm, he⟩

/-!  Facts about the resolver's output.  -/

theorem extractLoop_mem {parsed : ParsedRef} {cvs : List Str} : ∀ {L : List Int}
    {vs : List ExtractedVerse} {v : ExtractedVerse},
    (extractLoop parsed cvs L).2 = some vs → v ∈ vs → ∃ n t, v = mkExtracted parsed n t
  | [], vs, v, h, hm => by
    simp only [extractLoop] at h
    injection h with h
    subst h
    cases hm
  | v0 :: L, vs, v, h, hm => by
    simp only [extractLoop] at h
    by_cases hg : (v0 - 1 : Int) < (cvs.length : Int)
    · rw [if_pos hg] at h
      cases hI : pyIndex cvs (v0 - 1) with
      | none => rw [hI] at h; cases h
      | some text =>
        rw [hI] at h
        rcases hE : extractLoop parsed cvs L with ⟨ws, r⟩
        rw [hE] at h
        dsimp only at h
        cases r with
        | none => cases h
        | some rest =>
          simp only [Option.map_some', Option.some.injEq] at h
          subst h
          rcases List.mem_cons.mp hm with rfl | h2
          · exact ⟨v0, text, rfl⟩
          · exact extractLoop_mem (by rw [hE]) h2
    · rw [if_neg hg] at h
      rcases hE : extractLoop parsed cvs L with ⟨ws, r⟩
      rw [hE] at h
      dsimp only at h
      exact extractLoop_mem (by rw [hE, h]) hm

theorem processRef_mem {kjv_data : List BookEntry} {s : Str} {vs : List ExtractedVerse}
    {v : ExtractedVerse} (h : (processRef kjv_data s).2 = some vs) (hm : v ∈ vs) :
    ∃ p n t, v = mkExtracted p n t := by
  unfold processRef at h
  cases hp : parse_verse_reference s with
  | none =>
    rw [hp] at h
    dsimp only at h
    injection h with h
    subst h
    cases hm
  | some parsed =>
    rw [hp] at h
    dsimp only at h
    cases hl : List.lookup parsed.book BOOK_ABBREV with
    | none =>
      rw [hl] at h
      dsimp only at h
      injection h with h
      subst h
      cases hm
    | some ab =>
      rw [hl] at h
      dsimp only at h
      cases hf : kjv_data.find? (fun e => e.abbr == ab) with
      | none =>
        rw [hf] at h
        dsimp only at h
        injection h with h
        subst h
        cases hm
      | some entry =>
        rw [hf] at h
        dsimp only at h
        by_cases hc : (parsed.chapter - 1 : Int) < (entry.chapters.length : Int)
        · rw [if_pos hc] at h
          cases hi : pyIndex entry.chapters (parsed.chapter - 1) with
          | none => rw [hi] at h; cases h
          | some cvs =>
            rw [hi] at h
            obtain ⟨n, t, he⟩ := extractLoop_mem h hm
            exact ⟨parsed, n, t, he⟩
        · rw [if_neg hc] at h
          injection h with h
          subst h
          cases hm

theorem extract_mem {kjv_data : List BookEntry} : ∀ {refs : List Str} {ws : List Warning}
    {ex : List ExtractedVerse} {v : ExtractedVerse},
    extract_verses_from_kjv kjv_data refs = (ws, some ex) → v ∈ ex →
    ∃ p n t, v = mkExtracted p n t
  | [], ws, ex, v, h, hm => by
    simp only [extract_verses_from_kjv, Prod.mk.injEq] at h
    obtain ⟨_, h2⟩ := h
    injection h2 with h2
    subst h2
    cases hm
  | r :: rs, ws, ex, v, h, hm => by
    rcases hP : processRef kjv_data r with ⟨ws1, r1⟩
    simp only [extract_verses_from_kjv, hP] at h
    cases r1 with
    | none =>
      have h2 := congrArg Prod.snd h
      dsimp at h2
      exact Option.noConfusion h2
    | some vs1 =>
      rcases hE : extract_verses_from_kjv kjv_data rs with ⟨ws2, r2⟩
      rw [hE] at h
      dsimp only at h
      have h2 := congrArg Prod.snd h
      dsimp at h2
      cases r2 with
      | none => exact Option.noConfusion h2
      | some l2 =>
        simp only [Option.map_some', Option.some.injEq] at h2
        rw [← h2] at hm
        rcases List.mem_append.mp hm with hml | hmr
        · exact processRef_mem (by rw [hP]) hml
        · exact extract_mem hE hmr

/-- When a reference parses but no further (a parse failure), or resolves to
zero verses, the driver goes on with the remaining references. -/
theorem extract_cons_parseFailure {kjv_data : List BookEntry} {s : Str}
    (h : parse_verse_reference s = none) (rest : List Str) :
    extract_verses_from_kjv kjv_data (s :: rest) =
      (Warning.parseFailure s :: (extract_verses_from_kjv kjv_data rest).1,
       (extract_verses_from_kjv kjv_data rest).2) := by
  have hP : processRef kjv_data s = ([Warning.parseFailure s], some []) := by
    unfold processRef
    rw [h]
  rcases hE : extract_verses_from_kjv kjv_data rest with ⟨ws2, r2⟩
  simp only [extract_verses_from_kjv, hP, hE]
  cases r2 with
  | none => rfl
  | some l2 => simp

theorem extract_cons_unknownBook {kjv_data : List BookEntry} {s : Str} {r : ParsedRef}
    (hp : parse_verse_reference s = some r)
    (hl : List.lookup r.book BOOK_ABBREV = none) (rest : List Str) :
    extract_verses_from_kjv kjv_data (s :: rest) =
      (Warning.unknownBook r.book :: (extract_verses_from_kjv kjv_data rest).1,
       (extract_verses_from_kjv kjv_data rest).2) := by
  have hP : processRef kjv_data s = ([Warning.unknownBook r.book], some []) := by
    unfold processRef
    rw [hp]
    dsimp only
    rw [hl]
  rcases hE : extract_verses_from_kjv kjv_data rest with ⟨ws2, r2⟩
  simp only [extract_verses_from_kjv, hP, hE]
  cases r2 with
  | none => rfl
  | some l2 => simp

/-!  Colon counting, to exhibit concrete strings outside the shape.  -/

theorem not_mem_of_all {p : Char → Bool} {l : Str} (hall : ∀ c ∈ l, p c = true) {a : Char}
    (ha : p a = false) : a ∉ l := fun hm => by rw [hall a hm] at ha; cases ha

theorem validShape_count_colon {s : Str} (h : ValidShape s) :
    (pyStrip s).count ':' = 1 := by
  obtain ⟨b, sp, cds, vds, tl, heq, hb, hsp, hspA, hcds, hcdsA, hvds, hvdsA, htl⟩ := h
  rw [heq]
  have hcb : ':' ∉ b := by
    obtain ⟨pre, core, rfl, hpre, hcoreNe, hcoreA⟩ := hb
    intro hm
    rcases List.mem_append.mp hm with hm | hm
    · rcases hpre with rfl | ⟨d, w, rfl, hd, hw⟩
      · cases hm
      · simp only [List.mem_cons, List.mem_singleton] at hm
        rcases hm with hm | hm | hm
        · rw [← hm] at hd; cases hd
        · rw [← hm] at hw; cases hw
        · cases hm
    · exact not_mem_of_all hcoreA (by decide) hm
  have hzb : b.count ':' = 0 := List.count_eq_zero.mpr hcb
  have hzsp : sp.count ':' = 0 := List.count_eq_zero.mpr (not_mem_of_all hspA (by decide))
  have hzc : cds.count ':' = 0 := List.count_eq_zero.mpr (not_mem_of_all hcdsA (by decide))
  have hzv : vds.count ':' = 0 := List.count_eq_zero.mpr (not_mem_of_all hvdsA (by decide))
  have hzt : tl.count ':' = 0 := by
    rcases htl with rfl | ⟨wds, rfl, hw, hwA⟩
    · rfl
    · apply List.count_eq_zero.mpr
      intro hm
      rcases List.mem_cons.mp hm with hm | hm
      · cases hm
      · exact not_mem_of_all hwA (by decide) hm
  simp only [List.count_append, List.count_cons, hzb, hzsp, hzc, hzv, hzt]
  simp

theorem pyRange_cons {a b : Int} (h : a < b) : pyRange a b = a :: pyRange (a + 1) b := by
  unfold pyRange
  have h1 : (b - a).toNat = (b - (a + 1)).toNat + 1 := by omega
  rw [h1, List.range_succ_eq_map, List.map_cons, List.map_map]
  refine congrArg₂ List.cons (by simp) ?_
  apply List.map_congr_left
  intro n _
  simp only [Function.comp_apply, Nat.succ_eq_add_one]
  push_cast
  ring

theorem extractLoop_warnings {parsed : ParsedRef} {cvs : List Str} : ∀ {L : List Int}
    {w : Warning}, w ∈ (extractLoop parsed cvs L).1 →
    ∃ v, w = Warning.verseNotFound v parsed.book parsed.chapter
  | [], w, h => by cases h
  | v0 :: L, w, h => by
    simp only [extractLoop] at h
    by_cases hg : (v0 - 1 : Int) < (cvs.length : Int)
    · rw [if_pos hg] at h
      cases hI : pyIndex cvs (v0 - 1) with
      | none => rw [hI] at h; cases h
      | some text =>
        rw [hI] at h
        rcases hE : extractLoop parsed cvs L with ⟨ws, r⟩
        rw [hE] at h
        dsimp only at h
        exact extractLoop_warnings (by rw [hE]; exact h)
    · rw [if_neg hg] at h
      rcases hE : extractLoop parsed cvs L with ⟨ws, r⟩
      rw [hE] at h
      dsimp only at h
      rcases List.mem_cons.mp h with rfl | h2
      · exact ⟨v0, rfl⟩
      · exact extractLoop_warnings (by rw [hE]; exact h2)

/-!  Claim theorems.  -/

/-- C2: for every valid single-verse reference string `"Book C:V"` — a book
part of the accepted shape (not beginning with whitespace), whitespace, the
chapter numeral `C`, a colon and the verse numeral `V` — `parse_verse_reference`
returns a reference with chapter `C` and `start_verse = end_verse = V`. -/
theorem single_verse_parse (b sp cds vds : Str)
    (hb : BookShape b) (hh : HeadNotSpace b)
    (hsp : sp ≠ []) (hspA : ∀ c ∈ sp, isPySpace c = true)
    (hcds : cds ≠ []) (hcdsA : ∀ c ∈ cds, isPyDigit c = true)
    (hvds : vds ≠ []) (hvdsA : ∀ c ∈ vds, isPyDigit c = true) :
    parse_verse_reference (b ++ (sp ++ (cds ++ ':' :: vds))) =
      some ⟨pyStrip b, (digitsVal cds : Int), (digitsVal vds : Int),
            (digitsVal vds : Int)⟩ := by
  have h := parse_verse_reference_eval b sp cds vds none hb hh hsp hspA hcds hcdsA hvds hvdsA
    (fun wds hw => Option.noConfusion hw)
  simpa [tailStr] using h

theorem single_verse_parse_witness :
    parse_verse_reference ("John 3:16".toList) = some ⟨"John".toList, 3, 16, 16⟩ := by
  have h := single_verse_parse ['J', 'o', 'h', 'n'] [' '] ['3'] ['1', '6']
    ⟨[], ['J', 'o', 'h', 'n'], rfl, Or.inl rfl, by decide, by decide⟩
    (fun c hc => by
      simp only [List.head?_cons, Option.some.injEq] at hc
      subst hc
      decide)
    (by decide) (by decide) (by decide) (by decide) (by decide) (by decide)
  exact h

/-- C3: every input string outside the supported shape
`<Book> <Chapter>:<Verse>` / `<Book> <Chapter>:<StartVerse>-<EndVerse>`
(after trimming surrounding whitespace) is rejected: `parse_verse_reference`
returns `none` (it never throws, being a total function into `Option`), and the
driver records one `ParseFailure` warning for it and continues with the
remaining references, extracting exactly what it would extract without it. -/
theorem malformed_reference_rejected (s : Str) (h : ¬ ValidShape s) :
    parse_verse_reference s = none ∧
    ∀ (kjv_data : List BookEntry) (rest : List Str),
      extract_verses_from_kjv kjv_data (s :: rest) =
        (Warning.parseFailure s :: (extract_verses_from_kjv kjv_data rest).1,
         (extract_verses_from_kjv kjv_data rest).2) := by
  have hnone : parse_verse_reference s = none := by
    cases hp : parse_verse_reference s with
    | none => rfl
    | some r => exact absurd (parse_some_validShape hp) h
  exact ⟨hnone, fun kjv_data rest => extract_cons_parseFailure hnone rest⟩

theorem malformed_reference_rejected_witness :
    parse_verse_reference ("John 3:16-4:2".toList) = none ∧
    extract_verses_from_kjv kjvTest ["John 3:16-4:2".toList]
      = ([Warning.parseFailure ("John 3:16-4:2".toList)], some []) := by
  have h := malformed_reference_rejected ("John 3:16-4:2".toList)
    (fun hv => by
      have hc := validShape_count_colon hv
      revert hc
      decide)
  exact ⟨h.1, h.2 kjvTest []⟩

/-- C4 is false as stated: the regex `(\d+)` accepts zero numerals, so a
successful parse can return chapter, start and end verse equal to `0`;
`"John 0:0"` parses to chapter `0`, `start_verse = end_verse = 0`, none of
which is strictly positive. -/
theorem parse_positive_counterexample :
    ∃ r, parse_verse_reference ("John 0:0".toList) = some r ∧
      ¬ (0 < r.chapter ∧ 0 < r.start_verse ∧ 0 < r.end_verse) := by
  refine ⟨⟨"John".toList, 0, 0, 0⟩, by decide, by decide⟩

/-- C4 (amended): every reference produced by a successful parse has
nonnegative chapter, start verse and end verse (the digit groups parse to
natural numbers); they need not be strictly positive, since zero numerals such
as `"John 0:0"` are accepted. -/
theorem parse_fields_nonneg (s : Str) (r : ParsedRef)
    (h : parse_verse_reference s = some r) :
    0 ≤ r.chapter ∧ 0 ≤ r.start_verse ∧ 0 ≤ r.end_verse := parse_nonneg h

theorem parse_fields_nonneg_witness :
    0 ≤ (ParsedRef.mk "John".toList 3 16 16).chapter ∧
    0 ≤ (ParsedRef.mk "John".toList 3 16 16).start_verse ∧
    0 ≤ (ParsedRef.mk "John".toList 3 16 16).end_verse :=
  parse_fields_nonneg ("John 3:16".toList) (ParsedRef.mk "John".toList 3 16 16) (by decide)

/-- C5 is false as stated: the parser performs no order check on ranges, so
`"John 3:16-2"` parses successfully with `end_verse = 2 < 16 = start_verse`. -/
theorem parse_order_counterexample :
    ∃ r, parse_verse_reference ("John 3:16-2".toList) = some r ∧
      r.end_verse < r.start_verse := by
  refine ⟨⟨"John".toList, 3, 16, 2⟩, by decide, by decide⟩

/-- C5 (amended): a successful parse of an input without a range (no hyphen in
the string) satisfies `end_verse = start_verse`, hence `end_verse ≥
start_verse`; when a range `V1-V2` is present the parser sets `end_verse = V2`
without comparing it to `V1`, so the invariant can fail. -/
theorem parse_no_range_end_eq_start (s : Str) (r : ParsedRef)
    (h : parse_verse_reference s = some r) (hnd : '-' ∉ s) :
    r.end_verse = r.start_verse ∧ r.start_verse ≤ r.end_verse := by
  have he := parse_end_eq_start_of_no_dash h hnd
  exact ⟨he, le_of_eq he.symm⟩

theorem parse_no_range_end_eq_start_witness :
    (ParsedRef.mk "John".toList 3 16 16).end_verse
      = (ParsedRef.mk "John".toList 3 16 16).start_verse ∧
    (ParsedRef.mk "John".toList 3 16 16).start_verse
      ≤ (ParsedRef.mk "John".toList 3 16 16).end_verse :=
  parse_no_range_end_eq_start ("John 3:16".toList) (ParsedRef.mk "John".toList 3 16 16)
    (by decide) (by decide)

/-- C9: the verse-text cleanup — removing every non-nesting `\x7b...\x7d`
annotation and then trimming surrounding whitespace — is idempotent: applying
it twice gives the same string as applying it once. -/
theorem annotation_strip_idempotent (s : Str) :
    cleanVerse (cleanVerse s) = cleanVerse s := cleanVerse_idem s

/-- C7: a syntactically valid reference whose book name is not a key of
`BOOK_ABBREV` never raises: it resolves to zero extracted verses with exactly
one `UnknownBook` warning, and the driver continues with the remaining
references, whose warnings and verses are unchanged. -/
theorem unknown_book_skipped (kjv_data : List BookEntry) (s : Str) (r : ParsedRef)
    (hp : parse_verse_reference s = some r)
    (hl : List.lookup r.book BOOK_ABBREV = none) :
    processRef kjv_data s = ([Warning.unknownBook r.book], some []) ∧
    ∀ rest : List Str,
      extract_verses_from_kjv kjv_data (s :: rest) =
        (Warning.unknownBook r.book :: (extract_verses_from_kjv kjv_data rest).1,
         (extract_verses_from_kjv kjv_data rest).2) := by
  constructor
  · unfold processRef
    rw [hp]
    dsimp only
    rw [hl]
  · exact fun rest => extract_cons_unknownBook hp hl rest

theorem unknown_book_skipped_witness :
    processRef kjvTest ("NotABook 1:1".toList)
      = ([Warning.unknownBook "NotABook".toList], some []) ∧
    extract_verses_from_kjv kjvTest ["NotABook 1:1".toList]
      = ([Warning.unknownBook "NotABook".toList], some []) := by
  have h := unknown_book_skipped kjvTest ("NotABook 1:1".toList)
    (ParsedRef.mk "NotABook".toList 1 1 1) (by decide) (by decide)
  exact ⟨h.1, h.2 []⟩

/-- C8: for every input reference list and corpus whose extraction completes,
the built question list has exactly one question per extracted verse, and the
`id` fields are exactly `1, 2, ..., N` in output order — a contiguous sequence
numbered across the whole run. -/
theorem question_ids_sequential (kjv_data : List BookEntry) (refs : List Str)
    (ws : List Warning) (ex : List ExtractedVerse)
    (h : extract_verses_from_kjv kjv_data refs = (ws, some ex)) :
    (buildQuestions ex).length = ex.length ∧
    (buildQuestions ex).map (fun q => q.id) = List.range' 1 ex.length :=
  ⟨buildQuestionsFrom_length 1 ex, buildQuestionsFrom_ids 1 ex⟩

theorem question_ids_sequential_witness :
    (buildQuestions
        [⟨"John 1:1".toList, "first chapter first verse".toList⟩,
         ⟨"John 1:2".toList, "first chapter second verse".toList⟩]).length = 2 ∧
    (buildQuestions
        [⟨"John 1:1".toList, "first chapter first verse".toList⟩,
         ⟨"John 1:2".toList, "first chapter second verse".toList⟩]).map (fun q => q.id)
      = List.range' 1 2 := by
  have h := question_ids_sequential kjvTest
    ["John 1:1-3".toList, "NotABook 1:1".toList]
    [Warning.verseNotFound 3 "John".toList 1, Warning.unknownBook "NotABook".toList]
    [⟨"John 1:1".toList, "first chapter first verse".toList⟩,
     ⟨"John 1:2".toList, "first chapter second verse".toList⟩]
    (by decide)
  exact h

/-- C10: every quiz question built from an extracted verse has `question` equal
to `"What does <reference> say?"` for the verse's reference string — itself of
the form `"<book> <chapter>:<verse>"` — `correct_answer` equal to the cleaned
verse text verbatim, and an empty `options` list. -/
theorem question_fields_faithful (kjv_data : List BookEntry) (refs : List Str)
    (ws : List Warning) (ex : List ExtractedVerse)
    (h : extract_verses_from_kjv kjv_data refs = (ws, some ex))
    (q : QuizQuestion) (hq : q ∈ buildQuestions ex) :
    q.question = "What does ".toList ++ q.verse_reference ++ " say?".toList ∧
    q.correct_answer = q.verse_text ∧
    q.options = [] ∧
    ∃ b c v t, q.verse_reference = b ++ ' ' :: (intStr c ++ ':' :: intStr v) ∧
      q.verse_text = cleanVerse t := by
  obtain ⟨idx, v, hv, rfl⟩ := buildQuestionsFrom_mem hq
  refine ⟨rfl, rfl, rfl, ?_⟩
  obtain ⟨p, n, t, ht⟩ := extract_mem h hv
  exact ⟨p.book, p.chapter, n, t, by rw [ht]; rfl, by rw [ht]; rfl⟩

theorem question_fields_faithful_witness :
    (toQuestion 1 ⟨"Genesis 1:1".toList,
        "In the beginning God created the heaven and the earth.".toList⟩).question
      = "What does ".toList
          ++ (toQuestion 1 ⟨"Genesis 1:1".toList,
                "In the beginning God created the heaven and the earth.".toList⟩).verse_reference
          ++ " say?".toList ∧
    (toQuestion 1 ⟨"Genesis 1:1".toList,
        "In the beginning God created the heaven and the earth.".toList⟩).correct_answer
      = (toQuestion 1 ⟨"Genesis 1:1".toList,
          "In the beginning God created the heaven and the earth.".toList⟩).verse_text ∧
    (toQuestion 1 ⟨"Genesis 1:1".toList,
        "In the beginning God created the heaven and the earth.".toList⟩).options = [] ∧
    ∃ b c v t,
      (toQuestion 1 ⟨"Genesis 1:1".toList,
          "In the beginning God created the heaven and the earth.".toList⟩).verse_reference
        = b ++ ' ' :: (intStr c ++ ':' :: intStr v) ∧
      (toQuestion 1 ⟨"Genesis 1:1".toList,
          "In the beginning God created the heaven and the earth.".toList⟩).verse_text
        = cleanVerse t := by
  have h := question_fields_faithful kjvTest ["Genesis 1:1".toList] []
    [⟨"Genesis 1:1".toList,
      "In the beginning God created the heaven and the earth.".toList⟩]
    (by decide)
    (toQuestion 1 ⟨"Genesis 1:1".toList,
      "In the beginning God created the heaven and the earth.".toList⟩)
    (by decide)
  exact h

/-- C1: for every valid range reference string `"Book C:V1-V2"` with
`V2 ≥ V1 ≥ 1`, whose book is a key of `BOOK_ABBREV` whose abbreviation occurs
in the corpus, and whose chapter `C` exists (`1 ≤ C ≤` number of chapters),
the parse returns `start_verse = V1` and `end_verse = V2`, and the resolver
emits the extracted verses of the ascending range `[V1, V2]` restricted to the
verses that exist — exactly `V2 - V1 + 1` records minus the number of verse
numbers in `[V1, V2]` exceeding the chapter's verse count, in ascending verse
order. -/
theorem range_reference_extraction (b sp cds vds wds : Str)
    (kjv_data : List BookEntry) (ab : Str) (entry : BookEntry)
    (hb : BookShape b) (hh : HeadNotSpace b)
    (hsp : sp ≠ []) (hspA : ∀ c ∈ sp, isPySpace c = true)
    (hcds : cds ≠ []) (hcdsA : ∀ c ∈ cds, isPyDigit c = true)
    (hvds : vds ≠ []) (hvdsA : ∀ c ∈ vds, isPyDigit c = true)
    (hwds : wds ≠ []) (hwdsA : ∀ c ∈ wds, isPyDigit c = true)
    (hV1 : 1 ≤ digitsVal vds) (hV21 : digitsVal vds ≤ digitsVal wds)
    (hab : List.lookup (pyStrip b) BOOK_ABBREV = some ab)
    (hfind : kjv_data.find? (fun e => e.abbr == ab) = some entry)
    (hC1 : 1 ≤ digitsVal cds) (hC2 : digitsVal cds ≤ entry.chapters.length) :
    parse_verse_reference (b ++ (sp ++ (cds ++ ':' :: (vds ++ '-' :: wds)))) =
      some ⟨pyStrip b, (digitsVal cds : Int), (digitsVal vds : Int),
            (digitsVal wds : Int)⟩ ∧
    ∃ ws vs,
      processRef kjv_data (b ++ (sp ++ (cds ++ ':' :: (vds ++ '-' :: wds))))
        = (ws, some vs) ∧
      vs = ((pyRange (digitsVal vds) ((digitsVal wds : Int) + 1)).filter
              (fun v => decide
                (v ≤ ((entry.chapters.getD (digitsVal cds - 1) []).length : Int)))).map
             (fun v => mkExtracted
               ⟨pyStrip b, (digitsVal cds : Int), (digitsVal vds : Int),
                (digitsVal wds : Int)⟩ v
               ((entry.chapters.getD (digitsVal cds - 1) []).getD (v - 1).toNat [])) ∧
      vs.length
        + ((pyRange (digitsVal vds) ((digitsVal wds : Int) + 1)).filter
            (fun v => decide
              (((entry.chapters.getD (digitsVal cds - 1) []).length : Int) < v))).length
        = digitsVal wds + 1 - digitsVal vds := by
  have hparse := parse_verse_reference_eval b sp cds vds (some wds) hb hh hsp hspA
    hcds hcdsA hvds hvdsA
    (fun w hw => by injection hw with hw; subst hw; exact ⟨hwds, hwdsA⟩)
  simp only [tailStr, Option.getD] at hparse
  refine ⟨hparse, ?_⟩
  have hPR := processRef_eval kjv_data (b ++ (sp ++ (cds ++ ':' :: (vds ++ '-' :: wds))))
    ⟨pyStrip b, (digitsVal cds : Int), (digitsVal vds : Int), (digitsVal wds : Int)⟩
    ab entry hparse hab hfind
    (by dsimp only; exact_mod_cast hC1)
    (by dsimp only; exact_mod_cast hC2)
  dsimp only at hPR
  have hidx : ((digitsVal cds : Int) - 1).toNat = digitsVal cds - 1 := by omega
  rw [hidx] at hPR
  have hL : ∀ v ∈ pyRange ((digitsVal vds : Nat) : Int)
      (((digitsVal wds : Nat) : Int) + 1), 1 ≤ v := by
    intro v hv
    have h3 := pyRange_mem_lower hv
    have h4 : (1 : Int) ≤ ((digitsVal vds : Nat) : Int) := by exact_mod_cast hV1
    omega
  rw [extractLoop_eval _ _ _ hL] at hPR
  refine ⟨_, _, hPR, rfl, ?_⟩
  rw [List.length_map]
  have hflt := filter_le_add_filter_lt
    (((entry.chapters.getD (digitsVal cds - 1) []).length : Nat) : Int)
    (pyRange ((digitsVal vds : Nat) : Int) (((digitsVal wds : Nat) : Int) + 1))
  rw [pyRange_length] at hflt
  have hto : ((((digitsVal wds : Nat) : Int) + 1) - ((digitsVal vds : Nat) : Int)).toNat
      = digitsVal wds + 1 - digitsVal vds := by omega
  omega

theorem range_reference_extraction_witness :
    parse_verse_reference ("John 1:1-3".toList) = some ⟨"John".toList, 1, 1, 3⟩ ∧
    ∃ ws vs, processRef kjvTest ("John 1:1-3".toList) = (ws, some vs) ∧
      vs.length = 2 := by
  obtain ⟨h1, ws, vs, h2, h3, h4⟩ := range_reference_extraction
    ['J', 'o', 'h', 'n'] [' '] ['1'] ['1'] ['3'] kjvTest ("jn".toList) jnEntry
    ⟨[], ['J', 'o', 'h', 'n'], rfl, Or.inl rfl, by decide, by decide⟩
    (fun c hc => by
      simp only [List.head?_cons, Option.some.injEq] at hc
      subst hc
      decide)
    (by decide) (by decide) (by decide) (by decide) (by decide) (by decide)
    (by decide) (by decide) (by decide) (by decide) (by decide) (by decide)
    (by decide) (by decide)
  refine ⟨h1, ws, vs, h2, ?_⟩
  rw [h3]
  decide

/-- C6: a parsed reference with chapter `0` (accepted, e.g. from `"John 0:1"`)
whose book is in the mapping and in the corpus with at least one chapter does
not fail with a `ChapterOutOfRange` warning: the Python index `chapter - 1 = -1`
selects the book's last chapter, and the verse loop runs over it; likewise a
start verse of `0` reads that chapter's last verse (index `-1`) instead of
failing with `VerseOutOfRange`. -/
theorem chapter_zero_negative_indexing (kjv_data : List BookEntry) (s : Str)
    (r : ParsedRef) (ab : Str) (entry : BookEntry)
    (hp : parse_verse_reference s = some r)
    (hc : r.chapter = 0)
    (hab : List.lookup r.book BOOK_ABBREV = some ab)
    (hfind : kjv_data.find? (fun e => e.abbr == ab) = some entry)
    (hne : entry.chapters ≠ []) :
    processRef kjv_data s
      = extractLoop r (entry.chapters.getLast hne)
          (pyRange r.start_verse (r.end_verse + 1)) ∧
    (∀ c bk, Warning.chapterNotFound c bk ∉ (processRef kjv_data s).1) ∧
    (r.start_verse = 0 → ∀ hlc : entry.chapters.getLast hne ≠ [],
      ∃ restVs, (processRef kjv_data s).2
        = some (mkExtracted r 0 ((entry.chapters.getLast hne).getLast hlc)
            :: restVs)) := by
  have hPR := processRef_eval_chapter0 kjv_data s r ab entry hp hab hfind hc hne
  refine ⟨hPR, ?_, ?_⟩
  · intro c bk hmem
    rw [hPR] at hmem
    obtain ⟨v, hv⟩ := extractLoop_warnings hmem
    exact Warning.noConfusion hv
  · intro hs0 hlc
    have hlen : 0 < (entry.chapters.getLast hne).length := List.length_pos.mpr hlc
    have hend : 0 ≤ r.end_verse := (parse_nonneg hp).2.2
    have hcons : pyRange r.start_verse (r.end_verse + 1)
        = 0 :: pyRange 1 (r.end_verse + 1) := by
      rw [hs0, pyRange_cons (by omega)]
      norm_num
    rw [hPR, hcons]
    simp only [extractLoop]
    have hg : (0 : Int) - 1 < ((entry.chapters.getLast hne).length : Int) := by
      push_cast
      omega
    rw [if_pos hg]
    have hI : pyIndex (entry.chapters.getLast hne) ((0 : Int) - 1)
        = some ((entry.chapters.getLast hne).getLast hlc) := by
      rw [show ((0 : Int) - 1) = -1 by norm_num]
      exact pyIndex_neg_one _ hlc
    rw [hI]
    have hL1 : ∀ v ∈ pyRange 1 (r.end_verse + 1), 1 ≤ v :=
      fun v hv => pyRange_mem_lower hv
    rw [extractLoop_eval r _ _ hL1]
    dsimp only
    exact ⟨_, rfl⟩

theorem chapter_zero_negative_indexing_witness :
    Warning.chapterNotFound 0 ("John".toList) ∉ (processRef kjvTest ("John 0:0".toList)).1 ∧
    ∃ restVs, (processRef kjvTest ("John 0:0".toList)).2
      = some (mkExtracted ⟨"John".toList, 0, 0, 0⟩ 0
          ("second chapter only verse ".toList) :: restVs) := by
  have h := chapter_zero_negative_indexing kjvTest ("John 0:0".toList)
    ⟨"John".toList, 0, 0, 0⟩ ("jn".toList) jnEntry (by decide) rfl (by decide)
    (by decide) (by decide)
  obtain ⟨h1, h2, h3⟩ := h
  obtain ⟨restVs, hr⟩ := h3 rfl (by decide)
  exact ⟨h2 0 ("John".toList), restVs, hr⟩
